import Mathlib

/-!
Verification of the autograd block engine (src/autograd/blocks/block.py).

Dense numpy arrays are embedded as lists of rationals: a vector is a
`List ℚ` and a matrix is a `List (List ℚ)` (list of rows).
`np.concatenate(_, axis=0)` is `vconcat`, `np.concatenate(_, axis=1)` is
`hconcat`, `np.matmul` is `matmul` and `np.diag` (on a 1-D input) is `diag`.

Python exceptions are embedded with `Except Err`: an abstract method body
`raise NotImplementedError` is a field returning `.error .notImplemented`,
a list subscript out of range is `.error .indexOutOfRange`, and reading a
missing attribute (for instance `.gradient` on a plain array) is
`.error .attributeError`.

The reverse-mode graph is an explicit store: a `List Node` indexed by
node id, so that the aliasing mutations of `__call__` (edge appends and
`times_used` increments on shared nodes) become explicit store updates.
-/

namespace Autograd

/-- Vector: a 1-D numpy array of the engine, embedded over ℚ. -/
abbrev Vec := List ℚ

/-- Matrix: a 2-D numpy array, a list of rows. -/
abbrev Mat := List (List ℚ)

/-- Runtime errors the embedded code can raise. -/
inductive Err where
  | notImplemented
  | indexOutOfRange
  | attributeError
deriving DecidableEq, Repr

/-- Edge of a reverse-mode graph node: the dictionary
with keys node and jacobian appended to childrens in Block.call. -/
structure Edge where
  node : ℕ
  jacobian : Mat
deriving DecidableEq, Repr

/-- Modelled from the spec: the Node class (file autograd/variable.py, not
part of this excerpt) is a graph record holding the ordered child edges and
the use counter; a fresh Node starts with no children and counter zero. -/
structure Node where
  childrens : List Edge
  times_used : ℕ
deriving DecidableEq, Repr

/-- Modelled from the spec: the Variable class (autograd/variable.py, not
part of this excerpt) holds the data and, in forward mode, an explicit
accumulated gradient; in reverse mode, a back-reference to a graph node
instead — never both. Absent attributes are `none`. -/
structure Variable where
  data : Vec
  gradient : Option Mat
  node : Option ℕ
deriving DecidableEq, Repr

/-- Modelled from the spec: the two-argument constructor Variable(data, grad)
used by the forward branch returns a full Variable with gradients and no
graph node. -/
def Variable.mkForward (d : Vec) (g : Mat) : Variable :=
  { data := d, gradient := some g, node := none }

/-- Modelled from the spec: the one-argument constructor Variable(data) used
by the reverse branch stores no gradient and creates a fresh Node
(empty childrens, counter zero); `nid` is the store index of that Node. -/
def Variable.mkReverse (d : Vec) (nid : ℕ) : Variable :=
  { data := d, gradient := none, node := some nid }

/-- Positional argument of a block call: either a Variable or a plain
constant array (the dynamic `type(arg) == Variable` test of the source
becomes a pattern match on this sum). -/
inductive Arg where
  | var (v : Variable)
  | const (c : Vec)
deriving DecidableEq, Repr

/-- Global mode flag consulted by Block.call. -/
inductive Mode where
  | forward
  | reverse
deriving DecidableEq, Repr

/-! ### Array operations (numpy collaborators) -/

/-- Dot product of two rows. -/
def dotp (xs ys : List ℚ) : ℚ := (List.zipWith (· * ·) xs ys).sum

/-- Number of columns of a matrix (length of its first row). -/
def numCols (B : Mat) : ℕ := (B.headD []).length

/-- Column j of a matrix. -/
def col (B : Mat) (j : ℕ) : List ℚ := B.map (fun r => r.getD j 0)

/-- Embedding of np.matmul on well-shaped matrices: entry (i, j) is the dot
product of row i of A with column j of B. -/
def matmul (A B : Mat) : Mat :=
  A.map (fun r => (List.range (numCols B)).map (fun j => dotp r (col B j)))

/-- Embedding of np.concatenate(ms, axis=0): stack the rows. -/
def vconcat (ms : List Mat) : Mat := ms.flatten

/-- Embedding of np.concatenate(ms, axis=1): extend each row. -/
def hconcat : List Mat → Mat
  | [] => []
  | [m] => m
  | m :: ms => List.zipWith (· ++ ·) m (hconcat ms)

/-- Embedding of np.diag on a 1-D input: the square matrix with the vector
on the diagonal and zeros elsewhere. -/
def diag (v : Vec) : Mat :=
  (List.range v.length).map
    (fun i => (List.range v.length).map (fun j => if i = j then v.getD i 0 else 0))

/-- Identity matrix (np.eye), used as the seed gradient of a leaf Variable. -/
def identity (n : ℕ) : Mat := diag (List.replicate n 1)

/-! ### The Block classes -/

/-- Block: a block instance is determined by its two overridable methods.
On the abstract base both raise; a concrete subclass supplies them. -/
structure Block where
  data_fn : List Arg → Except Err Vec
  get_jacobians : List Arg → Except Err (List Mat)

/-- Abstract Block base: both methods raise NotImplementedError
(block.py lines 36-51). -/
def Block.base : Block :=
  { data_fn := fun _ => .error .notImplemented
    get_jacobians := fun _ => .error .notImplemented }

/-- SimpleBlock: adds the elementwise derivative method gradient_fn; on the
abstract SimpleBlock base both data_fn (inherited) and gradient_fn raise. -/
structure SimpleBlock where
  data_fn : List Arg → Except Err Vec
  gradient_fn : List Arg → Except Err Vec

/-- Abstract SimpleBlock base: data_fn is inherited from Block (raises) and
gradient_fn raises (block.py lines 151-157). -/
def SimpleBlock.base : SimpleBlock :=
  { data_fn := fun _ => .error .notImplemented
    gradient_fn := fun _ => .error .notImplemented }

/-- SimpleBlock.get_jacobians (block.py lines 160-168): evaluate the
elementwise derivative and return the singleton list holding np.diag of it. -/
def SimpleBlock.get_jacobians (sb : SimpleBlock) (args : List Arg) :
    Except Err (List Mat) :=
  match sb.gradient_fn args with
  | .error e => .error e
  | .ok elts => .ok [diag elts]

/-- View a SimpleBlock as a Block (inheritance). -/
def SimpleBlock.toBlock (sb : SimpleBlock) : Block :=
  { data_fn := sb.data_fn, get_jacobians := sb.get_jacobians }

/-! ### Forward mode -/

/-- The list comprehension [var.gradient for var in args] of
gradient_forward: every positional argument must be a Variable exposing a
gradient, otherwise the attribute access raises. -/
def getGrads : List Arg → Except Err (List Mat)
  | [] => .ok []
  | .var v :: rest =>
    match v.gradient with
    | none => .error .attributeError
    | some g =>
      match getGrads rest with
      | .error e => .error e
      | .ok gs => .ok (g :: gs)
  | .const _ :: _ => .error .attributeError

/-- Block.gradient_forward (block.py lines 55-88): concatenate the input
gradients along axis 0, concatenate the per-input Jacobians along axis 1,
and return their matrix product. -/
def Block.gradient_forward (b : Block) (args : List Arg) : Except Err Mat :=
  match getGrads args with
  | .error e => .error e
  | .ok input_grads =>
    match b.get_jacobians args with
    | .error e => .error e
    | .ok jacobians => .ok (matmul (hconcat jacobians) (vconcat input_grads))

/-! ### Reverse mode -/

/-- Predicate for the dynamic type test type(arg) == Variable. -/
def isVar : Arg → Bool
  | .var _ => true
  | .const _ => false

/-- The input_variables list of the reverse branch: the positional
arguments that are Variables, kept in order. -/
def varsOf (args : List Arg) : List Variable :=
  args.filterMap (fun a => match a with | .var v => some v | .const _ => none)

/-- The variables_indexes list of the reverse branch: the original
positional index of each Variable argument; `k` is the index offset of the
enumeration. -/
def varIndexes : List Arg → ℕ → List ℕ
  | [], _ => []
  | .var _ :: rest, k => k :: varIndexes rest (k + 1)
  | .const _ :: rest, k => varIndexes rest (k + 1)

/-- The list comprehension [var.node for var in input_variables]: each
retained Variable must expose a node, otherwise the attribute access
raises. -/
def getNodes : List Variable → Except Err (List ℕ)
  | [] => .ok []
  | v :: rest =>
    match v.node with
    | none => .error .attributeError
    | some nid =>
      match getNodes rest with
      | .error e => .error e
      | .ok ns => .ok (nid :: ns)

/-- Replace the node at index i of the store by f applied to it
(no-op when i is out of range). -/
def updateNode : List Node → ℕ → (Node → Node) → List Node
  | [], _, _ => []
  | n :: rest, 0, f => f n :: rest
  | n :: rest, i + 1, f => n :: updateNode rest i f

/-- Append one edge to the childrens list of node i
(the statement outputVariable.node.childrens += [...]). -/
def appendEdge (s : List Node) (i : ℕ) (e : Edge) : List Node :=
  updateNode s i (fun n => { n with childrens := n.childrens ++ [e] })

/-- Increment the use counter of node i
(the statement children_nodes[i].times_used += 1). -/
def incUsed (s : List Node) (i : ℕ) : List Node :=
  updateNode s i (fun n => { n with times_used := n.times_used + 1 })

/-- The reverse-branch loop of Block.call (block.py lines 128-132):
for each i in variables_indexes, subscript the compacted children_nodes and
children_jacs lists at the ORIGINAL positional index i (raising IndexError
when out of range), append the edge to the output node nid and increment the
child's counter. -/
def revLoop (nid : ℕ) (cns : List ℕ) (cjs : List Mat) :
    List ℕ → List Node → Except Err (List Node)
  | [], s => .ok s
  | i :: rest, s =>
    match cns[i]?, cjs[i]? with
    | some d, some jac =>
      revLoop nid cns cjs rest (incUsed (appendEdge s nid ⟨d, jac⟩) d)
    | _, _ => .error .indexOutOfRange

/-- Block.__call__ (block.py lines 90-134): compute the data; in forward
mode push the gradient with gradient_forward and return a full Variable; in
reverse mode collect the Variable arguments and their indexes, read their
nodes, compute the local Jacobians, create the output Variable with a fresh
Node (store index s.length) and run the edge/counter loop. -/
def Block.call (b : Block) (m : Mode) (s : List Node) (args : List Arg) :
    Except Err (List Node × Variable) :=
  match b.data_fn args with
  | .error e => .error e
  | .ok new_data =>
    match m with
    | .forward =>
      match b.gradient_forward args with
      | .error e => .error e
      | .ok new_grad => .ok (s, Variable.mkForward new_data new_grad)
    | .reverse =>
      match getNodes (varsOf args) with
      | .error e => .error e
      | .ok children_nodes =>
        match b.get_jacobians args with
        | .error e => .error e
        | .ok children_jacs =>
          match revLoop s.length children_nodes children_jacs
              (varIndexes args 0) (s ++ [⟨[], 0⟩]) with
          | .error e => .error e
          | .ok s2 => .ok (s2, Variable.mkReverse new_data s.length)

/-- Spec-side predicate: the Variable arguments occupy an initial segment of
the positional argument list (no Variable after a constant). -/
def varsLeading : List Arg → Bool
  | [] => true
  | .var _ :: rest => varsLeading rest
  | .const _ :: rest => !rest.any isVar

/-! ### Claim C10: abstract bases raise NotImplementedError -/

/-- Claim C10: data_fn and get_jacobians on the abstract Block base and
gradient_fn on the abstract SimpleBlock base raise NotImplementedError on
every argument list, and calling the abstract Block via __call__ therefore
raises it as well instead of returning a Variable. -/
theorem abstract_base_not_implemented :
    (∀ args, Block.base.data_fn args = .error .notImplemented) ∧
    (∀ args, Block.base.get_jacobians args = .error .notImplemented) ∧
    (∀ args, SimpleBlock.base.gradient_fn args = .error .notImplemented) ∧
    (∀ m s args, Block.base.call m s args = .error .notImplemented) := by
  refine ⟨fun _ => rfl, fun _ => rfl, fun _ => rfl, fun m s args => ?_⟩
  cases m <;> rfl

/-! ### Claim C6: SimpleBlock Jacobians are diagonal -/

/-- Claim C6: a SimpleBlock whose gradient_fn succeeds returns from
get_jacobians a sequence of exactly one Jacobian, the square matrix
np.diag(gradient_fn(x)) whose off-diagonal entries are all zero. -/
theorem simpleblock_jacobian_diagonal (sb : SimpleBlock) (args : List Arg)
    (elts : Vec) (h : sb.gradient_fn args = .ok elts) :
    sb.get_jacobians args = .ok [diag elts] ∧
    (diag elts).length = elts.length ∧
    (∀ row ∈ diag elts, row.length = elts.length) ∧
    (∀ i j, i < elts.length → j < elts.length → i ≠ j →
      ((diag elts).getD i []).getD j 0 = 0) := by
  refine ⟨?_, ?_, ?_, ?_⟩
  · simp [SimpleBlock.get_jacobians, h]
  · simp [diag]
  · intro row hrow
    simp only [diag, List.mem_map] at hrow
    obtain ⟨i, _, hrow⟩ := hrow
    simp [← hrow]
  · intro i j hi hj hne
    simp [diag, List.getD_eq_getElem?_getD, hi, hj, hne]

/-- Witness for C6 at a concrete SimpleBlock with derivative vector [3, 5]. -/
theorem simpleblock_jacobian_diagonal_witness :
    (⟨fun _ => .ok [], fun _ => .ok [(3 : ℚ), 5]⟩ :
        SimpleBlock).get_jacobians [] = .ok [diag [(3 : ℚ), 5]] ∧
    (diag [(3 : ℚ), 5]).length = ([(3 : ℚ), 5] : Vec).length ∧
    (∀ row ∈ diag [(3 : ℚ), 5], row.length = ([(3 : ℚ), 5] : Vec).length) ∧
    (∀ i j, i < ([(3 : ℚ), 5] : Vec).length → j < ([(3 : ℚ), 5] : Vec).length →
      i ≠ j → ((diag [(3 : ℚ), 5]).getD i []).getD j 0 = 0) :=
  simpleblock_jacobian_diagonal _ [] [(3 : ℚ), 5] rfl

/-- Projection: a forward-constructed Variable exposes its gradient. -/
theorem gradient_mkForward (d : Vec) (g : Mat) :
    (Variable.mkForward d g).gradient = some g := rfl

/-- Projection: a forward-constructed Variable has no graph node. -/
theorem node_mkForward (d : Vec) (g : Mat) :
    (Variable.mkForward d g).node = none := rfl

/-- Projection: a reverse-constructed Variable has no explicit gradient. -/
theorem gradient_mkReverse (d : Vec) (nid : ℕ) :
    (Variable.mkReverse d nid).gradient = none := rfl

/-- Projection: a reverse-constructed Variable exposes its node. -/
theorem node_mkReverse (d : Vec) (nid : ℕ) :
    (Variable.mkReverse d nid).node = some nid := rfl

/-! ### Matrix lemmas for the diagonal-Jacobian algebra -/

/-- Congruence for maps over an initial range. -/
theorem map_range_congr {α : Type} (n : ℕ) (F G : ℕ → α)
    (h : ∀ i, i < n → F i = G i) :
    (List.range n).map F = (List.range n).map G :=
  List.map_congr_left (fun i hi => h i (List.mem_range.mp hi))

/-- Reading a map over a range with a default. -/
theorem getD_map_range (n : ℕ) (f : ℕ → ℚ) (j : ℕ) (d : ℚ) :
    ((List.range n).map f).getD j d = if j < n then f j else d := by
  rw [List.getD_eq_getElem?_getD, List.getElem?_map]
  by_cases hj : j < n
  · rw [List.getElem?_range hj]
    simp [hj]
  · rw [List.getElem?_eq_none (by simpa using Nat.le_of_not_lt hj)]
    simp [hj]

/-- Sum of a one-hot map over a range. -/
theorem sum_map_range_single (n i : ℕ) (c : ℚ) :
    ((List.range n).map (fun k => if k = i then c else 0)).sum
      = if i < n then c else 0 := by
  induction n with
  | zero => simp
  | succ n ih =>
    rw [List.range_succ, List.map_append, List.sum_append, ih]
    rcases Nat.lt_trichotomy i n with h | h | h
    · have h2 : n ≠ i := by omega
      have h3 : i < n + 1 := by omega
      simp [h, h2, h3]
    · subst h
      simp
    · have h2 : ¬ i < n := by omega
      have h3 : n ≠ i := by omega
      have h4 : ¬ i < n + 1 := by omega
      simp [h2, h3, h4]

/-- Dot product of two maps over the same range. -/
theorem dotp_map_range (n : ℕ) (f g : ℕ → ℚ) :
    dotp ((List.range n).map f) ((List.range n).map g)
      = ((List.range n).map (fun k => f k * g k)).sum := by
  rw [dotp, List.zipWith_map, List.zipWith_same]

/-- The diag of a vector has as many columns as the vector has entries. -/
theorem numCols_diag (v : Vec) : numCols (diag v) = v.length := by
  cases v with
  | nil => rfl
  | cons a t => simp [numCols, diag, List.range_succ_eq_map]

/-- Entry of an elementwise product with a default. -/
theorem getD_zipWith_mul (a b : Vec) (i : ℕ) (ha : i < a.length)
    (hb : i < b.length) :
    (List.zipWith (· * ·) a b).getD i 0 = a.getD i 0 * b.getD i 0 := by
  rw [List.getD_eq_getElem?_getD, List.getD_eq_getElem?_getD,
    List.getD_eq_getElem?_getD, List.getElem?_zipWith,
    List.getElem?_eq_getElem ha, List.getElem?_eq_getElem hb]
  rfl

/-- Column j of the diag of a vector is the j-th one-hot column. -/
theorem col_diag (b : Vec) (j : ℕ) (hj : j < b.length) :
    col (diag b) j
      = (List.range b.length).map (fun k => if k = j then b.getD k 0 else 0) := by
  unfold col diag
  rw [List.map_map]
  apply map_range_congr
  intro k _
  simp only [Function.comp_apply]
  rw [getD_map_range]
  rw [if_pos hj]

/-- Product of two diagonal matrices of the same size is the diagonal matrix
of the elementwise products. -/
theorem matmul_diag_diag (a b : Vec) (hab : a.length = b.length) :
    matmul (diag a) (diag b) = diag (List.zipWith (· * ·) a b) := by
  have hz : (List.zipWith (· * ·) a b).length = a.length := by
    rw [List.length_zipWith, hab, Nat.min_self]
  have hda : diag a = (List.range a.length).map
      (fun i => (List.range a.length).map
        (fun j => if i = j then a.getD i 0 else 0)) := rfl
  have hdz : diag (List.zipWith (· * ·) a b)
      = (List.range a.length).map
        (fun i => (List.range a.length).map
          (fun j => if i = j then (List.zipWith (· * ·) a b).getD i 0 else 0)) := by
    unfold diag
    rw [hz]
  unfold matmul
  rw [numCols_diag, ← hab, hdz, hda, List.map_map]
  apply map_range_congr
  intro i hi
  simp only [Function.comp_apply]
  apply map_range_congr
  intro j hj
  rw [col_diag b j (hab ▸ hj), ← hab, dotp_map_range,
    show ((List.range a.length).map
        (fun k => (if i = k then a.getD i 0 else 0) *
          (if k = j then b.getD k 0 else 0)))
      = ((List.range a.length).map
        (fun k => if k = i then
          (if i = j then a.getD i 0 * b.getD i 0 else 0) else 0))
    from map_range_congr _ _ _ ?_,
    sum_map_range_single]
  · by_cases hij : i = j
    · subst hij
      rw [getD_zipWith_mul a b i hi (hab ▸ hi)]
      simp [hi]
    · simp [hi, hij]
  · intro k _
    by_cases hk : k = i
    · subst hk
      by_cases hkj : k = j <;> simp [hkj]
    · have h2 : ¬ i = k := fun hh => hk hh.symm
      simp [hk, h2]

/-- Elementwise product with a vector of ones is the identity. -/
theorem zipWith_mul_replicate_one (a : Vec) :
    List.zipWith (· * ·) a (List.replicate a.length 1) = a := by
  induction a with
  | nil => rfl
  | cons x xs ih => simp [List.replicate, ih]

/-- Multiplying a diagonal matrix by the identity gives it back. -/
theorem matmul_diag_identity (a : Vec) :
    matmul (diag a) (identity a.length) = diag a := by
  rw [identity,
    matmul_diag_diag a (List.replicate a.length 1) (by simp),
    zipWith_mul_replicate_one]

/-- Concatenating a single matrix along axis 1 gives it back. -/
theorem hconcat_singleton (m : Mat) : hconcat [m] = m := rfl

/-- Concatenating a single matrix along axis 0 gives it back. -/
theorem vconcat_singleton (m : Mat) : vconcat [m] = m := by
  simp [vconcat]

/-! ### Claim C1: forward propagation is combined-Jacobian times gradients -/

/-- Gradient extraction succeeds on a list of Variables that all carry
gradients and returns exactly those gradients. -/
theorem getGrads_map_var (vs : List Variable) (grads : List Mat)
    (h : vs.mapM Variable.gradient = some grads) :
    getGrads (vs.map Arg.var) = .ok grads := by
  induction vs generalizing grads with
  | nil =>
    simp only [List.mapM_nil, pure] at h
    cases h
    rfl
  | cons v rest ih =>
    rw [List.mapM_cons] at h
    cases hv : v.gradient with
    | none => rw [hv] at h; simp at h
    | some g =>
      rw [hv] at h
      cases hr : rest.mapM Variable.gradient with
      | none => rw [hr] at h; simp at h
      | some gs =>
        rw [hr] at h
        simp only [Option.bind_eq_bind, Option.some_bind, Option.some.injEq] at h
        cases h
        simp [getGrads, hv, ih gs hr]

/-- Claim C1: a forward-mode block application whose positional inputs are
all Variables carrying gradients returns a Variable whose gradient is the
matrix product of the per-input Jacobians concatenated along axis 1 with the
inputs' accumulated gradients concatenated along axis 0. -/
theorem forward_gradient_formula (b : Block) (s : List Node)
    (vs : List Variable) (grads : List Mat) (nd : Vec) (jacs : List Mat)
    (hg : vs.mapM Variable.gradient = some grads)
    (hd : b.data_fn (vs.map Arg.var) = .ok nd)
    (hj : b.get_jacobians (vs.map Arg.var) = .ok jacs) :
    b.call .forward s (vs.map Arg.var)
      = .ok (s, Variable.mkForward nd (matmul (hconcat jacs) (vconcat grads))) := by
  have hgg := getGrads_map_var vs grads hg
  simp [Block.call, Block.gradient_forward, hd, hj, hgg]

/-- Witness for C1: one input Variable with gradient [[1]], block value [5]
and local Jacobian [[2]]. -/
theorem forward_gradient_formula_witness :
    (⟨fun _ => .ok [(5 : ℚ)], fun _ => .ok [[[(2 : ℚ)]]]⟩ : Block).call .forward []
        ([Variable.mkForward [(1 : ℚ)] [[(1 : ℚ)]]].map Arg.var)
      = .ok ([], Variable.mkForward [(5 : ℚ)]
          (matmul (hconcat [[[(2 : ℚ)]]]) (vconcat [[[(1 : ℚ)]]]))) :=
  forward_gradient_formula _ [] [Variable.mkForward [(1 : ℚ)] [[(1 : ℚ)]]]
    [[[(1 : ℚ)]]] [(5 : ℚ)] [[[(2 : ℚ)]]] rfl rfl rfl

/-! ### Claim C5: two-stage forward composition follows the chain rule -/

/-- Claim C5: composing two SimpleBlocks f then g in forward mode on a
Variable x seeded with the identity gradient yields the gradient
diag(gradient_fn of g at f(x) times gradient_fn of f at x, elementwise):
the engine's composed gradient is the analytic chain rule. -/
theorem forward_chain_rule (f g : SimpleBlock) (s : List Node)
    (x fx fdx gx gdx : Vec)
    (hfd : f.data_fn [Arg.var (Variable.mkForward x (identity x.length))] = .ok fx)
    (hfg : f.gradient_fn [Arg.var (Variable.mkForward x (identity x.length))] = .ok fdx)
    (hlen1 : fdx.length = x.length)
    (hgd : g.data_fn [Arg.var (Variable.mkForward fx (diag fdx))] = .ok gx)
    (hgg : g.gradient_fn [Arg.var (Variable.mkForward fx (diag fdx))] = .ok gdx)
    (hlen2 : gdx.length = fdx.length) :
    f.toBlock.call .forward s [Arg.var (Variable.mkForward x (identity x.length))]
      = .ok (s, Variable.mkForward fx (diag fdx)) ∧
    g.toBlock.call .forward s [Arg.var (Variable.mkForward fx (diag fdx))]
      = .ok (s, Variable.mkForward gx (diag (List.zipWith (· * ·) gdx fdx))) := by
  constructor
  · simp only [Block.call, SimpleBlock.toBlock, Block.gradient_forward, getGrads,
      gradient_mkForward, SimpleBlock.get_jacobians, hfd, hfg]
    rw [hconcat_singleton, vconcat_singleton, ← hlen1, matmul_diag_identity]
  · simp only [Block.call, SimpleBlock.toBlock, Block.gradient_forward, getGrads,
      gradient_mkForward, SimpleBlock.get_jacobians, hgd, hgg]
    rw [hconcat_singleton, vconcat_singleton, matmul_diag_diag gdx fdx hlen2]

/-- Witness for C5 at x = [2] with f of value [4] and derivative [4], g of
value [16] and derivative [8]: the composed gradient is diag([32]). -/
theorem forward_chain_rule_witness :
    (⟨fun _ => .ok [(4 : ℚ)], fun _ => .ok [(4 : ℚ)]⟩ : SimpleBlock).toBlock.call
        .forward [] [Arg.var (Variable.mkForward [(2 : ℚ)] (identity 1))]
      = .ok ([], Variable.mkForward [(4 : ℚ)] (diag [(4 : ℚ)])) ∧
    (⟨fun _ => .ok [(16 : ℚ)], fun _ => .ok [(8 : ℚ)]⟩ : SimpleBlock).toBlock.call
        .forward [] [Arg.var (Variable.mkForward [(4 : ℚ)] (diag [(4 : ℚ)]))]
      = .ok ([], Variable.mkForward [(16 : ℚ)]
          (diag (List.zipWith (· * ·) [(8 : ℚ)] [(4 : ℚ)]))) :=
  forward_chain_rule ⟨fun _ => .ok [(4 : ℚ)], fun _ => .ok [(4 : ℚ)]⟩
    ⟨fun _ => .ok [(16 : ℚ)], fun _ => .ok [(8 : ℚ)]⟩ [] [(2 : ℚ)] [(4 : ℚ)]
    [(4 : ℚ)] [(16 : ℚ)] [(8 : ℚ)] rfl rfl rfl rfl rfl rfl

/-! ### Store and loop lemmas for reverse mode -/

/-- Edges the reverse loop creates, one per processed index. -/
def edgesFor (cns : List ℕ) (cjs : List Mat) (idxs : List ℕ) : List Edge :=
  idxs.map (fun i => ⟨cns.getD i 0, cjs.getD i []⟩)

/-- Number of processed indexes whose child node is d. -/
def countHits (cns : List ℕ) (idxs : List ℕ) (d : ℕ) : ℕ :=
  (idxs.filter (fun i => cns.getD i 0 == d)).length

/-- Updating a node keeps the store size. -/
theorem updateNode_length (s : List Node) (i : ℕ) (f : Node → Node) :
    (updateNode s i f).length = s.length := by
  induction s generalizing i with
  | nil => rfl
  | cons n rest ih =>
    cases i with
    | zero => rfl
    | succ i => simp [updateNode, ih]

/-- Reading an updated store. -/
theorem updateNode_getElem? (s : List Node) (i j : ℕ) (f : Node → Node) :
    (updateNode s i f)[j]? = if j = i then (s[j]?).map f else s[j]? := by
  induction s generalizing i j with
  | nil => simp [updateNode]
  | cons n rest ih =>
    cases i with
    | zero =>
      cases j with
      | zero => simp [updateNode]
      | succ j => simp [updateNode]
    | succ i =>
      cases j with
      | zero => simp [updateNode]
      | succ j => simp [updateNode, ih i j]

/-- Head step of countHits. -/
theorem countHits_cons (cns : List ℕ) (i : ℕ) (rest : List ℕ) (d : ℕ) :
    countHits cns (i :: rest) d
      = (if cns.getD i 0 = d then 1 else 0) + countHits cns rest d := by
  rw [countHits, countHits, List.filter_cons]
  by_cases h : cns.getD i 0 = d
  · rw [if_pos (by simpa using h), if_pos h, List.length_cons]
    omega
  · rw [if_neg (by simpa using h), if_neg h]
    omega

/-- Head step of edgesFor. -/
theorem edgesFor_cons (cns : List ℕ) (cjs : List Mat) (i : ℕ) (rest : List ℕ) :
    edgesFor cns cjs (i :: rest)
      = ⟨cns.getD i 0, cjs.getD i []⟩ :: edgesFor cns cjs rest := rfl

/-- Master description of the reverse loop: on success the store keeps its
size, and every node d ends with its original edges, extended by the created
edges exactly when d is the fresh output node, and its counter incremented
once per processed index whose child is d. -/
theorem revLoop_spec (nid : ℕ) (cns : List ℕ) (cjs : List Mat)
    (idxs : List ℕ) :
    ∀ (s s2 : List Node), revLoop nid cns cjs idxs s = .ok s2 →
      s2.length = s.length ∧
      ∀ (d : ℕ) (nd : Node), s[d]? = some nd →
        s2[d]? = some ⟨nd.childrens ++ (if d = nid then edgesFor cns cjs idxs else []),
          nd.times_used + countHits cns idxs d⟩ := by
  induction idxs with
  | nil =>
    intro s s2 h
    simp only [revLoop, Except.ok.injEq] at h
    subst h
    refine ⟨rfl, fun d nd hd => ?_⟩
    simp [edgesFor, countHits, hd]
  | cons i rest ih =>
    intro s s2 h
    simp only [revLoop] at h
    cases hcn : cns[i]? with
    | none =>
      rw [hcn] at h
      cases hcj : cjs[i]? <;> rw [hcj] at h <;> simp at h
    | some d1 =>
      rw [hcn] at h
      cases hcj : cjs[i]? with
      | none => rw [hcj] at h; simp at h
      | some jac =>
        rw [hcj] at h
        obtain ⟨hlen, hspec⟩ := ih _ _ h
        have hgd : cns.getD i 0 = d1 := by
          rw [List.getD_eq_getElem?_getD, hcn]; rfl
        have hgj : cjs.getD i [] = jac := by
          rw [List.getD_eq_getElem?_getD, hcj]; rfl
        constructor
        · rw [hlen, incUsed, appendEdge, updateNode_length, updateNode_length]
        · intro d nd hd
          have hnd1 : (incUsed (appendEdge s nid ⟨d1, jac⟩) d1)[d]?
              = some ⟨nd.childrens ++ (if d = nid then [⟨d1, jac⟩] else []),
                  nd.times_used + (if d = d1 then 1 else 0)⟩ := by
            rw [incUsed, updateNode_getElem?, appendEdge, updateNode_getElem?, hd]
            by_cases e2 : d = d1 <;> by_cases e1 : d = nid
            · simp [if_pos e2, if_pos e1]
            · simp [if_pos e2, if_neg e1]
            · simp [if_neg e2, if_pos e1]
            · simp [if_neg e2, if_neg e1]
          have hstep := hspec d _ hnd1
          rw [hstep, edgesFor_cons, countHits_cons, hgd, hgj]
          simp only [Option.some.injEq, Node.mk.injEq]
          constructor
          · by_cases e1 : d = nid <;> simp [if_pos, if_neg, e1, List.append_assoc]
          · by_cases e2 : d = d1
            · have e4 : d1 = d := by omega
              rw [if_pos e2, if_pos e4]
              omega
            · have e4 : ¬ d1 = d := by omega
              rw [if_neg e2, if_neg e4]
              omega

/-- On success every processed index is in range of both the compacted node
list and the Jacobian list. -/
theorem revLoop_ok_bounds (nid : ℕ) (cns : List ℕ) (cjs : List Mat)
    (idxs : List ℕ) :
    ∀ (s s2 : List Node), revLoop nid cns cjs idxs s = .ok s2 →
      ∀ i ∈ idxs, i < cns.length ∧ i < cjs.length := by
  induction idxs with
  | nil => intro s s2 _ i hi; simp at hi
  | cons i0 rest ih =>
    intro s s2 h i hi
    simp only [revLoop] at h
    cases hcn : cns[i0]? with
    | none =>
      rw [hcn] at h
      cases hcj : cjs[i0]? <;> rw [hcj] at h <;> simp at h
    | some d1 =>
      rw [hcn] at h
      cases hcj : cjs[i0]? with
      | none => rw [hcj] at h; simp at h
      | some jac =>
        rw [hcj] at h
        rw [List.mem_cons] at hi
        rcases hi with hi | hi
        · subst hi
          obtain ⟨h1, -⟩ := List.getElem?_eq_some.mp hcn
          obtain ⟨h2, -⟩ := List.getElem?_eq_some.mp hcj
          exact ⟨h1, h2⟩
        · exact ih _ _ h i hi

/-- If any processed index is out of range of either list, the loop raises
the index error. -/
theorem revLoop_oob (nid : ℕ) (cns : List ℕ) (cjs : List Mat)
    (idxs : List ℕ) :
    ∀ (s : List Node), (∃ i ∈ idxs, cns.length ≤ i ∨ cjs.length ≤ i) →
      revLoop nid cns cjs idxs s = .error .indexOutOfRange := by
  induction idxs with
  | nil => intro s hex; simp at hex
  | cons i0 rest ih =>
    intro s hex
    obtain ⟨i, hmem, hbound⟩ := hex
    rw [List.mem_cons] at hmem
    simp only [revLoop]
    cases hcn : cns[i0]? with
    | none => cases hcj : cjs[i0]? <;> rfl
    | some d1 =>
      cases hcj : cjs[i0]? with
      | none => rfl
      | some jac =>
        rcases hmem with hmem | hmem
        · subst hmem
          obtain ⟨h1, -⟩ := List.getElem?_eq_some.mp hcn
          obtain ⟨h2, -⟩ := List.getElem?_eq_some.mp hcj
          omega
        · exact ih _ ⟨i, hmem, hbound⟩

/-! ### Lemmas about the Variable filtering and indexing -/

/-- getNodes preserves the length. -/
theorem getNodes_length (vs : List Variable) (cns : List ℕ)
    (h : getNodes vs = .ok cns) : cns.length = vs.length := by
  induction vs generalizing cns with
  | nil => simp only [getNodes, Except.ok.injEq] at h; subst h; rfl
  | cons v rest ih =>
    simp only [getNodes] at h
    cases hv : v.node with
    | none => rw [hv] at h; simp at h
    | some nid =>
      rw [hv] at h
      cases hr : getNodes rest with
      | error e => rw [hr] at h; simp at h
      | ok ns =>
        rw [hr] at h
        simp only [Except.ok.injEq] at h
        subst h
        simp [ih ns hr]

/-- getNodes pairs each Variable with its node id, positionally. -/
theorem getNodes_getElem? (vs : List Variable) (cns : List ℕ)
    (h : getNodes vs = .ok cns) :
    ∀ (j : ℕ) (w : Variable), vs[j]? = some w →
      ∃ nid, w.node = some nid ∧ cns[j]? = some nid := by
  induction vs generalizing cns with
  | nil => intro j w hw; simp at hw
  | cons v rest ih =>
    intro j w hw
    simp only [getNodes] at h
    cases hv : v.node with
    | none => rw [hv] at h; simp at h
    | some nid =>
      rw [hv] at h
      cases hr : getNodes rest with
      | error e => rw [hr] at h; simp at h
      | ok ns =>
        rw [hr] at h
        simp only [Except.ok.injEq] at h
        subst h
        cases j with
        | zero =>
          simp only [List.getElem?_cons_zero, Option.some.injEq] at hw
          subst hw
          exact ⟨nid, hv, by simp⟩
        | succ j =>
          simp only [List.getElem?_cons_succ] at hw ⊢
          exact ih ns hr j w hw

/-- varIndexes has one entry per Variable argument. -/
theorem varIndexes_length (args : List Arg) :
    ∀ k, (varIndexes args k).length = (varsOf args).length := by
  induction args with
  | nil => intro k; rfl
  | cons a rest ih =>
    intro k
    cases a with
    | var v => simp [varIndexes, varsOf, List.filterMap_cons, ih]
    | const c => simp [varIndexes, varsOf, List.filterMap_cons, ih]

/-- A list with no Variable yields no retained inputs. -/
theorem noVar_varsOf (args : List Arg) (h : args.any isVar = false) :
    varsOf args = [] := by
  induction args with
  | nil => rfl
  | cons a rest ih =>
    cases a with
    | var v => simp [isVar] at h
    | const c =>
      simp only [List.any_cons, isVar, Bool.false_or] at h
      exact ih h

/-- A list with no Variable yields no indexes. -/
theorem noVar_varIndexes (args : List Arg) :
    ∀ k, args.any isVar = false → varIndexes args k = [] := by
  induction args with
  | nil => intro k _; rfl
  | cons a rest ih =>
    intro k h
    cases a with
    | var v => simp [isVar] at h
    | const c =>
      simp only [List.any_cons, isVar, Bool.false_or] at h
      exact ih (k + 1) h

/-- When the Variables occupy a leading segment, their indexes are exactly
the first positions. -/
theorem varsLeading_varIndexes (args : List Arg) :
    ∀ k, varsLeading args = true →
      varIndexes args k = List.range' k (varsOf args).length := by
  induction args with
  | nil => intro k _; rfl
  | cons a rest ih =>
    intro k h
    cases a with
    | var v =>
      simp only [varsLeading] at h
      rw [show varIndexes (Arg.var v :: rest) k = k :: varIndexes rest (k + 1) from rfl,
        ih (k + 1) h,
        show varsOf (Arg.var v :: rest) = v :: varsOf rest from rfl,
        List.length_cons, List.range'_succ]
    | const c =>
      simp only [varsLeading, Bool.not_eq_true'] at h
      rw [show varIndexes (Arg.const c :: rest) k = varIndexes rest (k + 1) from rfl,
        noVar_varIndexes rest (k + 1) h,
        show varsOf (Arg.const c :: rest) = varsOf rest from rfl,
        noVar_varsOf rest h]
      rfl

/-- If some Variable occurs anywhere, the last Variable index is at least
the offset plus the Variable count minus one. -/
theorem anyVar_big_index (args : List Arg) :
    ∀ k, args.any isVar = true →
      ∃ i ∈ varIndexes args k, k + (varsOf args).length ≤ i + 1 := by
  induction args with
  | nil => intro k h; simp at h
  | cons a rest ih =>
    intro k h
    cases a with
    | var v =>
      cases hrest : rest.any isVar with
      | false =>
        refine ⟨k, List.mem_cons_self k _, ?_⟩
        rw [show varsOf (Arg.var v :: rest) = v :: varsOf rest from rfl,
          noVar_varsOf rest hrest]
        simp
      | true =>
        obtain ⟨i, hmem, hle⟩ := ih (k + 1) hrest
        refine ⟨i, List.mem_cons_of_mem k hmem, ?_⟩
        rw [show varsOf (Arg.var v :: rest) = v :: varsOf rest from rfl,
          List.length_cons]
        omega
    | const c =>
      simp only [List.any_cons, isVar, Bool.false_or] at h
      obtain ⟨i, hmem, hle⟩ := ih (k + 1) h
      refine ⟨i, hmem, ?_⟩
      rw [show varsOf (Arg.const c :: rest) = varsOf rest from rfl]
      omega

/-- If the Variables do not occupy a leading segment, some Variable index
reaches the offset plus the Variable count. -/
theorem notLeading_big_index (args : List Arg) :
    ∀ k, varsLeading args = false →
      ∃ i ∈ varIndexes args k, k + (varsOf args).length ≤ i := by
  induction args with
  | nil => intro k h; simp [varsLeading] at h
  | cons a rest ih =>
    intro k h
    cases a with
    | var v =>
      simp only [varsLeading] at h
      obtain ⟨i, hmem, hle⟩ := ih (k + 1) h
      refine ⟨i, List.mem_cons_of_mem k hmem, ?_⟩
      rw [show varsOf (Arg.var v :: rest) = v :: varsOf rest from rfl,
        List.length_cons]
      omega
    | const c =>
      simp only [varsLeading, Bool.not_eq_false'] at h
      obtain ⟨i, hmem, hle⟩ := anyVar_big_index rest (k + 1) h
      refine ⟨i, hmem, ?_⟩
      rw [show varsOf (Arg.const c :: rest) = varsOf rest from rfl]
      omega

/-- When the Variables occupy a leading segment, every Variable index is
below the offset plus the Variable count. -/
theorem leading_small_index (args : List Arg) :
    ∀ k, varsLeading args = true →
      ∀ i ∈ varIndexes args k, i < k + (varsOf args).length := by
  intro k h i hi
  rw [varsLeading_varIndexes args k h] at hi
  have := List.mem_range'_1.mp hi
  omega

/-! ### Anatomy of a successful call -/

/-- Destructuring a successful forward call. -/
theorem call_forward_ok (b : Block) (s : List Node) (args : List Arg)
    (s' : List Node) (v : Variable)
    (h : b.call .forward s args = .ok (s', v)) :
    ∃ ndata grad, b.data_fn args = .ok ndata ∧
      b.gradient_forward args = .ok grad ∧ s' = s ∧
      v = Variable.mkForward ndata grad := by
  simp only [Block.call] at h
  cases hd : b.data_fn args with
  | error e => simp only [hd] at h; simp at h
  | ok ndata =>
    simp only [hd] at h
    cases hg : b.gradient_forward args with
    | error e => simp only [hg] at h; simp at h
    | ok grad =>
      simp only [hg] at h
      simp only [Except.ok.injEq, Prod.mk.injEq] at h
      exact ⟨ndata, grad, rfl, rfl, h.1.symm, h.2.symm⟩

/-- Destructuring a successful reverse call. -/
theorem call_reverse_ok (b : Block) (s : List Node) (args : List Arg)
    (s' : List Node) (v : Variable)
    (h : b.call .reverse s args = .ok (s', v)) :
    ∃ ndata cns cjs, b.data_fn args = .ok ndata ∧
      getNodes (varsOf args) = .ok cns ∧ b.get_jacobians args = .ok cjs ∧
      revLoop s.length cns cjs (varIndexes args 0) (s ++ [⟨[], 0⟩]) = .ok s' ∧
      v = Variable.mkReverse ndata s.length := by
  simp only [Block.call] at h
  cases hd : b.data_fn args with
  | error e => simp only [hd] at h; simp at h
  | ok ndata =>
    simp only [hd] at h
    cases hn : getNodes (varsOf args) with
    | error e => simp only [hn] at h; simp at h
    | ok cns =>
      simp only [hn] at h
      cases hj : b.get_jacobians args with
      | error e => simp only [hj] at h; simp at h
      | ok cjs =>
        simp only [hj] at h
        cases hl : revLoop s.length cns cjs (varIndexes args 0) (s ++ [⟨[], 0⟩]) with
        | error e => simp only [hl] at h; simp at h
        | ok s2 =>
          simp only [hl] at h
          simp only [Except.ok.injEq, Prod.mk.injEq] at h
          exact ⟨ndata, cns, cjs, rfl, rfl, rfl, h.1 ▸ hl, h.2.symm⟩

/-- Everything a successful reverse call guarantees: the Variables were a
leading segment, the indexes are the first positions, the fresh output node
holds exactly the created edges, and every pre-existing node keeps its edges
and gains one counter hit per created edge targeting it. -/
theorem reverse_ok_anatomy (b : Block) (s : List Node) (args : List Arg)
    (s' : List Node) (v : Variable)
    (h : b.call .reverse s args = .ok (s', v)) :
    ∃ cns cjs,
      getNodes (varsOf args) = .ok cns ∧
      b.get_jacobians args = .ok cjs ∧
      varsLeading args = true ∧
      varIndexes args 0 = List.range (varsOf args).length ∧
      (varsOf args).length ≤ cjs.length ∧
      cns.length = (varsOf args).length ∧
      v.node = some s.length ∧
      s'.length = s.length + 1 ∧
      s'[s.length]? = some ⟨edgesFor cns cjs (List.range (varsOf args).length),
        countHits cns (List.range (varsOf args).length) s.length⟩ ∧
      ∀ (d : ℕ) (nd : Node), s[d]? = some nd →
        s'[d]? = some ⟨nd.childrens,
          nd.times_used + countHits cns (List.range (varsOf args).length) d⟩ := by
  obtain ⟨ndata, cns, cjs, hd, hn, hj, hl, hv⟩ := call_reverse_ok b s args s' v h
  have hcnlen : cns.length = (varsOf args).length := getNodes_length _ _ hn
  have hbounds := revLoop_ok_bounds s.length cns cjs (varIndexes args 0) _ _ hl
  have hlead : varsLeading args = true := by
    cases hlead : varsLeading args with
    | true => rfl
    | false =>
      obtain ⟨i, hmem, hle⟩ := notLeading_big_index args 0 hlead
      have := (hbounds i hmem).1
      omega
  have hidx : varIndexes args 0 = List.range (varsOf args).length := by
    rw [varsLeading_varIndexes args 0 hlead, List.range_eq_range']
  have hcjlen : (varsOf args).length ≤ cjs.length := by
    rcases Nat.eq_zero_or_pos (varsOf args).length with h0 | h0
    · omega
    · have hm : (varsOf args).length - 1 ∈ varIndexes args 0 := by
        rw [hidx]
        exact List.mem_range.mpr (by omega)
      have := (hbounds _ hm).2
      omega
  rw [hidx] at hl
  obtain ⟨hlen, hspec⟩ := revLoop_spec s.length cns cjs _ _ _ hl
  refine ⟨cns, cjs, hn, hj, hlead, hidx, hcjlen, hcnlen, ?_, ?_, ?_, ?_⟩
  · rw [hv]; rfl
  · rw [hlen]; simp
  · have h1 : (s ++ [(⟨[], 0⟩ : Node)])[s.length]? = some ⟨[], 0⟩ :=
      List.getElem?_concat_length s ⟨[], 0⟩
    have := hspec s.length ⟨[], 0⟩ h1
    simpa using this
  · intro d nd hd0
    have hdlt : d < s.length := by
      obtain ⟨hlt, -⟩ := List.getElem?_eq_some.mp hd0
      exact hlt
    have h1 : (s ++ [(⟨[], 0⟩ : Node)])[d]? = some nd := by
      rw [List.getElem?_append_left hdlt]
      exact hd0
    have hne : ¬ d = s.length := by omega
    have := hspec d nd h1
    rw [if_neg hne] at this
    simpa using this

/-! ### Claim C2: one edge per Variable input, in order, with its Jacobian -/

/-- Claim C2: a reverse-mode block application that returns a Variable gives
it a Node with exactly one child edge per positional Variable argument
(constants contribute none), in input order, each edge pairing that
Variable's node with the positionally corresponding local Jacobian from
get_jacobians. -/
theorem reverse_children_edges (b : Block) (s : List Node) (args : List Arg)
    (s' : List Node) (v : Variable)
    (h : b.call .reverse s args = .ok (s', v)) :
    ∃ outNode cjs, v.node = some s.length ∧ s'[s.length]? = some outNode ∧
      b.get_jacobians args = .ok cjs ∧
      outNode.childrens.length = (varsOf args).length ∧
      ∀ (j : ℕ), j < (varsOf args).length →
        ∃ w e, (varsOf args)[j]? = some w ∧ outNode.childrens[j]? = some e ∧
          w.node = some e.node ∧ cjs[j]? = some e.jacobian := by
  obtain ⟨cns, cjs, hn, hj, hlead, hidx, hcjlen, hcnlen, hvnode, hslen, hout, hpre⟩ :=
    reverse_ok_anatomy b s args s' v h
  refine ⟨_, cjs, hvnode, hout, hj, ?_, ?_⟩
  · simp [edgesFor]
  · intro j hjlt
    have hw : (varsOf args)[j]? = some ((varsOf args).get ⟨j, hjlt⟩) :=
      List.getElem?_eq_getElem hjlt
    obtain ⟨nid, hwnode, hcnsj⟩ := getNodes_getElem? _ _ hn j _ hw
    refine ⟨_, ⟨cns.getD j 0, cjs.getD j []⟩, hw, ?_, ?_, ?_⟩
    · show (edgesFor cns cjs (List.range (varsOf args).length))[j]? = _
      rw [edgesFor, List.getElem?_map, List.getElem?_range hjlt]
      rfl
    · rw [hwnode]
      show some nid = some (cns.getD j 0)
      rw [List.getD_eq_getElem?_getD, hcnsj]
      rfl
    · have hj2 : j < cjs.length := lt_of_lt_of_le hjlt hcjlen
      show cjs[j]? = some (cjs.getD j [])
      rw [List.getD_eq_getElem?_getD, List.getElem?_eq_getElem hj2]
      rfl

/-- Witness for C2: a block applied to one Variable (node 0) and one
constant yields a Node with exactly one child edge, referencing node 0 with
the first Jacobian. -/
theorem reverse_children_edges_witness :
    ∃ outNode cjs,
      (Variable.mkReverse [(6 : ℚ)] 1).node = some 1 ∧
      ([⟨[], 1⟩, ⟨[⟨0, [[(3 : ℚ)]]⟩], 0⟩] : List Node)[1]? = some outNode ∧
      (⟨fun _ => .ok [(6 : ℚ)], fun _ => .ok [[[(3 : ℚ)]], [[(2 : ℚ)]]]⟩ :
          Block).get_jacobians [Arg.var ⟨[(2 : ℚ)], none, some 0⟩, Arg.const [(3 : ℚ)]]
        = .ok cjs ∧
      outNode.childrens.length
        = (varsOf [Arg.var ⟨[(2 : ℚ)], none, some 0⟩, Arg.const [(3 : ℚ)]]).length ∧
      ∀ (j : ℕ), j < (varsOf [Arg.var ⟨[(2 : ℚ)], none, some 0⟩,
          Arg.const [(3 : ℚ)]]).length →
        ∃ w e, (varsOf [Arg.var ⟨[(2 : ℚ)], none, some 0⟩,
            Arg.const [(3 : ℚ)]])[j]? = some w ∧
          outNode.childrens[j]? = some e ∧
          w.node = some e.node ∧ cjs[j]? = some e.jacobian :=
  reverse_children_edges
    ⟨fun _ => .ok [(6 : ℚ)], fun _ => .ok [[[(3 : ℚ)]], [[(2 : ℚ)]]]⟩
    [⟨[], 0⟩] [Arg.var ⟨[(2 : ℚ)], none, some 0⟩, Arg.const [(3 : ℚ)]]
    [⟨[], 1⟩, ⟨[⟨0, [[(3 : ℚ)]]⟩], 0⟩] (Variable.mkReverse [(6 : ℚ)] 1) rfl

/-! ### Claim C3: compacted-list indexing by original positions -/

/-- Claim C3: in reverse mode the loop subscripts the compacted node list by
original positional indexes, so whenever some Variable argument sits at a
position at least the number of Variable arguments (equivalently, whenever
the Variables are not a leading segment), the call raises the out-of-range
index error instead of returning a Variable; it can return a Variable only
when the Variable arguments occupy a leading segment. -/
theorem reverse_nonleading_index_error (b : Block) (s : List Node)
    (args : List Arg) (ndata : Vec) (cns : List ℕ) (cjs : List Mat)
    (hd : b.data_fn args = .ok ndata)
    (hn : getNodes (varsOf args) = .ok cns)
    (hj : b.get_jacobians args = .ok cjs) :
    ((∃ i ∈ varIndexes args 0, (varsOf args).length ≤ i) ↔
      varsLeading args = false) ∧
    (varsLeading args = false →
      b.call .reverse s args = .error .indexOutOfRange) ∧
    (∀ (s' : List Node) (v : Variable),
      b.call .reverse s args = .ok (s', v) → varsLeading args = true) := by
  have hiff : (∃ i ∈ varIndexes args 0, (varsOf args).length ≤ i) ↔
      varsLeading args = false := by
    constructor
    · rintro ⟨i, hmem, hle⟩
      cases hlead : varsLeading args with
      | false => rfl
      | true =>
        have := leading_small_index args 0 hlead i hmem
        omega
    · intro hlead
      obtain ⟨i, hmem, hle⟩ := notLeading_big_index args 0 hlead
      exact ⟨i, hmem, by omega⟩
  have herr : varsLeading args = false →
      b.call .reverse s args = .error .indexOutOfRange := by
    intro hlead
    obtain ⟨i, hmem, hle⟩ := hiff.mpr hlead
    have hcl : cns.length = (varsOf args).length := getNodes_length _ _ hn
    have hloop := revLoop_oob s.length cns cjs (varIndexes args 0)
      (s ++ [⟨[], 0⟩]) ⟨i, hmem, Or.inl (by omega)⟩
    simp [Block.call, hd, hn, hj, hloop]
  refine ⟨hiff, herr, ?_⟩
  intro s' v hok
  cases hlead : varsLeading args with
  | true => rfl
  | false =>
    rw [herr hlead] at hok
    simp at hok

/-- Witness for C3 at apply(constant, variable): the Variable sits at
position 1 with only one Variable present, so the call raises. -/
theorem reverse_nonleading_index_error_witness :
    ((∃ i ∈ varIndexes [Arg.const [(3 : ℚ)],
        Arg.var ⟨[(2 : ℚ)], none, some 0⟩] 0,
      (varsOf [Arg.const [(3 : ℚ)], Arg.var ⟨[(2 : ℚ)], none, some 0⟩]).length ≤ i) ↔
      varsLeading [Arg.const [(3 : ℚ)], Arg.var ⟨[(2 : ℚ)], none, some 0⟩] = false) ∧
    (varsLeading [Arg.const [(3 : ℚ)], Arg.var ⟨[(2 : ℚ)], none, some 0⟩] = false →
      (⟨fun _ => .ok [], fun _ => .ok [[[(1 : ℚ)]], [[(2 : ℚ)]]]⟩ : Block).call
          .reverse [⟨[], 0⟩]
          [Arg.const [(3 : ℚ)], Arg.var ⟨[(2 : ℚ)], none, some 0⟩]
        = .error .indexOutOfRange) ∧
    (∀ (s' : List Node) (v : Variable),
      (⟨fun _ => .ok [], fun _ => .ok [[[(1 : ℚ)]], [[(2 : ℚ)]]]⟩ : Block).call
          .reverse [⟨[], 0⟩]
          [Arg.const [(3 : ℚ)], Arg.var ⟨[(2 : ℚ)], none, some 0⟩]
        = .ok (s', v) →
      varsLeading [Arg.const [(3 : ℚ)], Arg.var ⟨[(2 : ℚ)], none, some 0⟩] = true) :=
  reverse_nonleading_index_error
    ⟨fun _ => .ok [], fun _ => .ok [[[(1 : ℚ)]], [[(2 : ℚ)]]]⟩ [⟨[], 0⟩]
    [Arg.const [(3 : ℚ)], Arg.var ⟨[(2 : ℚ)], none, some 0⟩]
    [] [0] [[[(1 : ℚ)]], [[(2 : ℚ)]]] rfl rfl rfl

/-! ### Claim C4: the use counter counts created edges exactly -/

/-- Claim C4: in a successful reverse-mode application, every pre-existing
node's times_used rises by exactly the number of child edges the call
created that target it — one per Variable argument carrying that node, so a
Variable passed twice in one application adds two, and nodes not consumed
add zero; across several applications the increments accumulate. -/
theorem reverse_times_used_counts_edges (b : Block) (s : List Node)
    (args : List Arg) (s' : List Node) (v : Variable) (d : ℕ) (nd : Node)
    (h : b.call .reverse s args = .ok (s', v)) (hd0 : s[d]? = some nd) :
    ∃ outNode, s'[s.length]? = some outNode ∧
      s'[d]? = some ⟨nd.childrens,
        nd.times_used + (outNode.childrens.filter (fun e => e.node == d)).length⟩ := by
  obtain ⟨cns, cjs, hn, hj, hlead, hidx, hcjlen, hcnlen, hvnode, hslen, hout, hpre⟩ :=
    reverse_ok_anatomy b s args s' v h
  refine ⟨_, hout, ?_⟩
  rw [hpre d nd hd0]
  have hfil : (((⟨edgesFor cns cjs (List.range (varsOf args).length),
        countHits cns (List.range (varsOf args).length) s.length⟩ : Node)).childrens.filter
          (fun e => e.node == d)).length
      = countHits cns (List.range (varsOf args).length) d := by
    show ((edgesFor cns cjs (List.range (varsOf args).length)).filter
        (fun e => e.node == d)).length = _
    rw [edgesFor, List.filter_map, List.length_map]
    rfl
  rw [hfil]

/-- Witness for C4: one Variable passed twice in a single application; its
node's counter is incremented twice, once per created edge targeting it. -/
theorem reverse_times_used_counts_edges_witness :
    ∃ outNode,
      ([⟨[], 2⟩, ⟨[⟨0, [[(1 : ℚ)]]⟩, ⟨0, [[(2 : ℚ)]]⟩], 0⟩] : List Node)[1]?
        = some outNode ∧
      ([⟨[], 2⟩, ⟨[⟨0, [[(1 : ℚ)]]⟩, ⟨0, [[(2 : ℚ)]]⟩], 0⟩] : List Node)[0]?
        = some ⟨(⟨[], 0⟩ : Node).childrens, (⟨[], 0⟩ : Node).times_used
            + (outNode.childrens.filter (fun e => e.node == 0)).length⟩ :=
  reverse_times_used_counts_edges
    ⟨fun _ => .ok [(5 : ℚ)], fun _ => .ok [[[(1 : ℚ)]], [[(2 : ℚ)]]]⟩
    [⟨[], 0⟩]
    [Arg.var ⟨[(2 : ℚ)], none, some 0⟩, Arg.var ⟨[(2 : ℚ)], none, some 0⟩]
    [⟨[], 2⟩, ⟨[⟨0, [[(1 : ℚ)]]⟩, ⟨0, [[(2 : ℚ)]]⟩], 0⟩]
    (Variable.mkReverse [(5 : ℚ)] 1) 0 ⟨[], 0⟩ rfl rfl

/-! ### Claim C8: reverse mode only appends to the new node and bumps counters -/

/-- Claim C8: a successful reverse-mode application adds exactly one node to
the store (the fresh output node); every pre-existing node keeps its
childrens edge list unchanged and has its times_used only incremented (by
some amount, possibly zero). Input Variables themselves are immutable values
of the embedding, so their data and node identity cannot change. -/
theorem reverse_frame_effect (b : Block) (s : List Node) (args : List Arg)
    (s' : List Node) (v : Variable)
    (h : b.call .reverse s args = .ok (s', v)) :
    s'.length = s.length + 1 ∧
    ∀ (d : ℕ) (nd : Node), s[d]? = some nd →
      ∃ k, s'[d]? = some ⟨nd.childrens, nd.times_used + k⟩ := by
  obtain ⟨cns, cjs, hn, hj, hlead, hidx, hcjlen, hcnlen, hvnode, hslen, hout, hpre⟩ :=
    reverse_ok_anatomy b s args s' v h
  exact ⟨hslen, fun d nd hd0 =>
    ⟨countHits cns (List.range (varsOf args).length) d, hpre d nd hd0⟩⟩

/-- Witness for C8 on a two-node store: the store grows by one and node 0
keeps its edges with its counter merely incremented. -/
theorem reverse_frame_effect_witness :
    ([⟨[], 1⟩, ⟨[], 0⟩, ⟨[⟨0, [[(3 : ℚ)]]⟩], 0⟩] : List Node).length
      = ([⟨[], 0⟩, ⟨[], 0⟩] : List Node).length + 1 ∧
    ∀ (d : ℕ) (nd : Node), ([⟨[], 0⟩, ⟨[], 0⟩] : List Node)[d]? = some nd →
      ∃ k, ([⟨[], 1⟩, ⟨[], 0⟩, ⟨[⟨0, [[(3 : ℚ)]]⟩], 0⟩] : List Node)[d]?
        = some ⟨nd.childrens, nd.times_used + k⟩ :=
  reverse_frame_effect
    ⟨fun _ => .ok [(6 : ℚ)], fun _ => .ok [[[(3 : ℚ)]], [[(2 : ℚ)]]]⟩
    [⟨[], 0⟩, ⟨[], 0⟩]
    [Arg.var ⟨[(2 : ℚ)], none, some 0⟩, Arg.const [(3 : ℚ)]]
    [⟨[], 1⟩, ⟨[], 0⟩, ⟨[⟨0, [[(3 : ℚ)]]⟩], 0⟩]
    (Variable.mkReverse [(6 : ℚ)] 2) rfl

/-! ### Claim C7: mode isolation of returned Variables -/

/-- Claim C7: every Variable a forward-mode call returns carries data and an
explicit gradient and no graph node, and every Variable a reverse-mode call
returns carries data and a fresh node and no explicit gradient: each
returned Variable is in exactly one of the two mode shapes. -/
theorem mode_isolation (b₁ b₂ : Block) (s₁ s₂ : List Node)
    (args₁ args₂ : List Arg) (s₁' s₂' : List Node) (v₁ v₂ : Variable)
    (h₁ : b₁.call .forward s₁ args₁ = .ok (s₁', v₁))
    (h₂ : b₂.call .reverse s₂ args₂ = .ok (s₂', v₂)) :
    (v₁.node = none ∧ v₁.gradient ≠ none) ∧
    (v₂.gradient = none ∧ v₂.node ≠ none) := by
  obtain ⟨ndata, grad, -, -, -, hv⟩ := call_forward_ok _ _ _ _ _ h₁
  obtain ⟨ndata2, cns, cjs, -, -, -, -, hv2⟩ := call_reverse_ok _ _ _ _ _ h₂
  subst hv hv2
  simp [Variable.mkForward, Variable.mkReverse]

/-- Witness for C7 with one concrete call of each mode. -/
theorem mode_isolation_witness :
    ((Variable.mkForward [(5 : ℚ)]
        (matmul (hconcat [[[(2 : ℚ)]]]) (vconcat [[[(1 : ℚ)]]]))).node = none ∧
      (Variable.mkForward [(5 : ℚ)]
        (matmul (hconcat [[[(2 : ℚ)]]]) (vconcat [[[(1 : ℚ)]]]))).gradient ≠ none) ∧
    ((Variable.mkReverse [(6 : ℚ)] 1).gradient = none ∧
      (Variable.mkReverse [(6 : ℚ)] 1).node ≠ none) :=
  mode_isolation
    ⟨fun _ => .ok [(5 : ℚ)], fun _ => .ok [[[(2 : ℚ)]]]⟩
    ⟨fun _ => .ok [(6 : ℚ)], fun _ => .ok [[[(3 : ℚ)]], [[(2 : ℚ)]]]⟩
    [] [⟨[], 0⟩]
    [Arg.var (Variable.mkForward [(1 : ℚ)] [[(1 : ℚ)]])]
    [Arg.var ⟨[(2 : ℚ)], none, some 0⟩, Arg.const [(3 : ℚ)]]
    [] [⟨[], 1⟩, ⟨[⟨0, [[(3 : ℚ)]]⟩], 0⟩]
    (Variable.mkForward [(5 : ℚ)]
      (matmul (hconcat [[[(2 : ℚ)]]]) (vconcat [[[(1 : ℚ)]]])))
    (Variable.mkReverse [(6 : ℚ)] 1) rfl rfl

/-! ### Claim C9: calls are deterministic and pure -/

/-- Claim C9: a block call is a pure function of the block's methods, the
mode, the store and the arguments: two blocks with the same methods applied
to identical inputs produce identical outcomes (including identical
Jacobians, which are a function application as well), so a retry with
unchanged inputs cannot change the outcome; moreover a forward-mode call
leaves the store untouched. -/
theorem call_deterministic (b₁ b₂ : Block) (m : Mode) (s : List Node)
    (args : List Arg)
    (h1 : ∀ a, b₁.data_fn a = b₂.data_fn a)
    (h2 : ∀ a, b₁.get_jacobians a = b₂.get_jacobians a) :
    b₁.call m s args = b₂.call m s args ∧
    b₁.get_jacobians args = b₂.get_jacobians args ∧
    (∀ (s' : List Node) (v : Variable),
      b₁.call .forward s args = .ok (s', v) → s' = s) := by
  refine ⟨?_, h2 args, ?_⟩
  · simp only [Block.call, Block.gradient_forward, h1, h2]
  · intro s' v h
    obtain ⟨-, -, -, -, hs, -⟩ := call_forward_ok _ _ _ _ _ h
    exact hs

/-- Witness for C9 with a concrete block retried against itself. -/
theorem call_deterministic_witness :
    (⟨fun _ => .ok [(5 : ℚ)], fun _ => .ok [[[(2 : ℚ)]]]⟩ : Block).call .forward []
        [Arg.var (Variable.mkForward [(1 : ℚ)] [[(1 : ℚ)]])]
      = (⟨fun _ => .ok [(5 : ℚ)], fun _ => .ok [[[(2 : ℚ)]]]⟩ : Block).call .forward []
        [Arg.var (Variable.mkForward [(1 : ℚ)] [[(1 : ℚ)]])] ∧
    (⟨fun _ => .ok [(5 : ℚ)], fun _ => .ok [[[(2 : ℚ)]]]⟩ : Block).get_jacobians
        [Arg.var (Variable.mkForward [(1 : ℚ)] [[(1 : ℚ)]])]
      = (⟨fun _ => .ok [(5 : ℚ)], fun _ => .ok [[[(2 : ℚ)]]]⟩ : Block).get_jacobians
        [Arg.var (Variable.mkForward [(1 : ℚ)] [[(1 : ℚ)]])] ∧
    (∀ (s' : List Node) (v : Variable),
      (⟨fun _ => .ok [(5 : ℚ)], fun _ => .ok [[[(2 : ℚ)]]]⟩ : Block).call .forward []
          [Arg.var (Variable.mkForward [(1 : ℚ)] [[(1 : ℚ)]])] = .ok (s', v) →
      s' = []) :=
  call_deterministic
    ⟨fun _ => .ok [(5 : ℚ)], fun _ => .ok [[[(2 : ℚ)]]]⟩
    ⟨fun _ => .ok [(5 : ℚ)], fun _ => .ok [[[(2 : ℚ)]]]⟩
    .forward [] [Arg.var (Variable.mkForward [(1 : ℚ)] [[(1 : ℚ)]])]
    (fun _ => rfl) (fun _ => rfl)

end Autograd
